import Mathlib

/-!
Verification of the `bms_parser` chart pipeline: the raw-object model and
`update_objects` from `chart.rs`, the note generator `BmsNotes::generate`
and the timeline sweep `BmsNotes::find_seconds` from `notes.rs`, and the
stop extraction of `generate_timings` from `timing.rs`.

Machine numerics are modelled exactly: `u16` fields as `Nat` (no relevant
overflow path: channels come from two base-36 digits, `< 1296`), `f64`
positions and seconds as `Rat` (all constants in the statements are exactly
representable in binary floating point, and the operations used — addition,
subtraction, multiplication, division by nonzero powers-of-two-free values —
agree with `f64` on these inputs).  Rust `HashMap`s are modelled as
association lists together with an arbitrary entry order, so that facts
about the map (rather than one iteration order) are stated as invariance
under permutation of the list.
-/

namespace Bms

/-- `BmsTime` from `timing.rs`: `{ measure: u16, fraction: OrderedFloat<f64> }`. -/
structure BmsTime where
  measure : Nat
  fraction : Rat
deriving DecidableEq, Repr

/-- The derived `Ord` on `BmsTime` (fields compared in declaration order:
`measure`, then `fraction`), expressed as the corresponding `≤` relation. -/
def timeLe (s t : BmsTime) : Prop :=
  s.measure < t.measure ∨ (s.measure = t.measure ∧ s.fraction ≤ t.fraction)

/-- Strict part of the `BmsTime` order. -/
def timeLt (s t : BmsTime) : Prop :=
  s.measure < t.measure ∨ (s.measure = t.measure ∧ s.fraction < t.fraction)

instance : DecidablePred fun p : BmsTime × BmsTime => timeLe p.1 p.2 := by
  intro p; unfold timeLe; infer_instance

instance (s t : BmsTime) : Decidable (timeLe s t) := by unfold timeLe; infer_instance

instance (s t : BmsTime) : Decidable (timeLt s t) := by unfold timeLt; infer_instance

/-- `BmsObject` from `chart.rs`:
`{ channel: u16, time: BmsTime, value: u16 }`. -/
structure BmsObject where
  channel : Nat
  time : BmsTime
  value : Nat
deriving DecidableEq, Repr

/-- The comparison that `#[derive(Ord)]` generates for `BmsObject`
(fields in declaration order: `channel`, then `time`, then `value`),
expressed as the `≤` relation used by `Vec::sort`. -/
def objLe (a b : BmsObject) : Prop :=
  a.channel < b.channel ∨
    (a.channel = b.channel ∧
      (timeLt a.time b.time ∨ (a.time = b.time ∧ a.value ≤ b.value)))

instance (a b : BmsObject) : Decidable (objLe a b) := by unfold objLe; infer_instance

/-- Boolean form of `objLe`, fed to the sort. -/
def objLeb (a b : BmsObject) : Bool := decide (objLe a b)

/-- The comparison of `BmsTime` as an `Ordering`, used by the handwritten
`partial_cmp` of `BmsObject` (`self.time.partial_cmp(&other.time)`);
on `BmsTime` the derived `PartialOrd` is total. -/
def timeCompare (s t : BmsTime) : Ordering :=
  match compare s.measure t.measure with
  | Ordering.eq => compare s.fraction t.fraction
  | o => o

/-- The handwritten `PartialOrd for BmsObject` in `chart.rs` (lines 23–36):
compare by `time` first; at equal time, `Some(Equal)` when both `value`
and `channel` agree and `None` otherwise. -/
def objPartialCmp (a b : BmsObject) : Option Ordering :=
  match timeCompare a.time b.time with
  | Ordering.eq =>
      if a.value = b.value ∧ a.channel = b.channel then some Ordering.eq
      else none
  | o => some o

/-- The handwritten `PartialEq for BmsObject`: equality over
`(channel, time)` only — `value` is ignored. -/
def objEqb (a b : BmsObject) : Bool :=
  decide (a.channel = b.channel ∧ a.time = b.time)

/-- The predicate passed to `dedup_by` in `update_objects`:
`a == b && a.channel != 1 && b.channel != 1`. -/
def dedupRel (a b : BmsObject) : Bool :=
  objEqb a b && !(a.channel == 1) && !(b.channel == 1)

/-- Inner loop of `Vec::dedup_by`: `prev` is the last retained element; a
candidate equal (under `r`) to it is dropped, otherwise it is retained and
becomes the new `prev`.  (Rust passes the candidate as the first argument.) -/
def dedupByGo (r : α → α → Bool) (prev : α) : List α → List α
  | [] => []
  | y :: ys => if r y prev then dedupByGo r prev ys else y :: dedupByGo r y ys

/-- `Vec::dedup_by`. -/
def dedupBy (r : α → α → Bool) : List α → List α
  | [] => []
  | x :: xs => x :: dedupByGo r x xs

/-- `BmsChart::update_objects` (`chart.rs` lines 57–63): sort the objects
(with the derived `Ord`), then `dedup_by(|a, b| a == b && a.channel != 1 && b.channel != 1)`. -/
def updateObjects (l : List BmsObject) : List BmsObject :=
  dedupBy dedupRel (List.mergeSort l objLeb)

theorem objLeb_trans (a b c : BmsObject) :
    objLeb a b → objLeb b c → objLeb a c := by
  simp only [objLeb, decide_eq_true_eq, objLe, timeLt]
  intro hab hbc
  rcases hab with h | ⟨hc1, h⟩ <;> rcases hbc with h' | ⟨hc2, h'⟩
  · exact Or.inl (lt_trans h h')
  · exact Or.inl (hc2 ▸ h)
  · exact Or.inl (hc1 ▸ h')
  · refine Or.inr ⟨hc1.trans hc2, ?_⟩
    rcases h with h | ⟨ht1, h⟩ <;> rcases h' with h' | ⟨ht2, h'⟩
    · rcases h with h | ⟨hm, h⟩ <;> rcases h' with h' | ⟨hm', h'⟩
      · exact Or.inl (Or.inl (lt_trans h h'))
      · exact Or.inl (Or.inl (hm' ▸ h))
      · exact Or.inl (Or.inl (hm ▸ h'))
      · exact Or.inl (Or.inr ⟨hm.trans hm', lt_trans h h'⟩)
    · exact Or.inl (ht2 ▸ h)
    · exact Or.inl (ht1 ▸ h')
    · exact Or.inr ⟨ht1.trans ht2, le_trans h h'⟩

/-! ## Note generator (`notes.rs`)

Modelled from the spec: the repository revision of `notes.rs` positions
objects and notes in quarter notes (`BmsTimeQuarterNotes`, a newtype over
`f64`, with `BmsTimeSeconds` its seconds counterpart); these wrapper types
are not under `src/`, so positions and seconds are embedded as `Rat`.
-/

/-- `BmsNoteType` from `notes.rs`. -/
inductive BmsNoteType where
  | normal (keysound : Nat)
  | hidden (keysound : Nat)
  | long (keysound : Nat) (endTime : Rat)
  | bgm (keysound : Nat)
  | mine (damage : Nat)
deriving DecidableEq, Repr

/-- `BmsNote` from `notes.rs`. -/
structure BmsNote where
  time : Rat
  lane : Nat
  noteType : BmsNoteType
deriving DecidableEq, Repr

/-- `BmsObject` as consumed by `BmsNotes::generate`: same
`(channel, time, value)` triple, with the position in quarter notes. -/
structure NObject where
  channel : Nat
  time : Rat
  value : Nat
deriving DecidableEq, Repr

/-- The derived lexicographic `Ord` on the objects `generate` sorts
(fields in declaration order: `channel`, `time`, `value`). -/
def nobjLe (a b : NObject) : Prop :=
  a.channel < b.channel ∨
    (a.channel = b.channel ∧
      (a.time < b.time ∨ (a.time = b.time ∧ a.value ≤ b.value)))

instance (a b : NObject) : Decidable (nobjLe a b) := by unfold nobjLe; infer_instance

/-- Boolean form of `nobjLe`. -/
def nobjLeb (a b : NObject) : Bool := decide (nobjLe a b)

/-- The `RANGES` constant of `BmsNotes::generate` (inclusive bounds):
BGM, 1P/2P visible, 1P/2P invisible, 1P/2P long-note, 1P/2P landmine. -/
def RANGES : List (Nat × Nat) :=
  [(1, 1), (37, 71), (73, 107), (109, 143), (145, 179),
   (181, 215), (217, 251), (469, 477), (505, 513)]

/-- The filter of `generate`: keep an object iff some range contains its
channel. -/
def inAnyRange (c : Nat) : Bool :=
  RANGES.any fun r => decide (r.1 ≤ c ∧ c ≤ r.2)

/-- The note-type selection loop of `generate` (`for j in 0..RANGES.len()`):
the ranges are pairwise disjoint, so the single matching range decides the
type.  `none` models `continue 'mainloop` for a visible-channel object whose
value equals a parsed `LNOBJ`; the final `Normal { keysound: 0 }` is the
initial value, kept when no range matches (unreachable after the filter). -/
def noteTypeOf (lnobj : Option Nat) (o : NObject) : Option BmsNoteType :=
  if o.channel = 1 then
    some (BmsNoteType.bgm o.value)
  else if (37 ≤ o.channel ∧ o.channel ≤ 71) ∨ (73 ≤ o.channel ∧ o.channel ≤ 107) then
    match lnobj with
    | some m => if o.value = m then none else some (BmsNoteType.normal o.value)
    | none => some (BmsNoteType.normal o.value)
  else if (109 ≤ o.channel ∧ o.channel ≤ 143) ∨ (145 ≤ o.channel ∧ o.channel ≤ 179) then
    some (BmsNoteType.hidden o.value)
  else if (181 ≤ o.channel ∧ o.channel ≤ 215) ∨ (217 ≤ o.channel ∧ o.channel ≤ 251) then
    some (BmsNoteType.long o.value 0)
  else if (469 ≤ o.channel ∧ o.channel ≤ 477) ∨ (505 ≤ o.channel ∧ o.channel ≤ 513) then
    some (BmsNoteType.mine (o.value / 2))
  else
    some (BmsNoteType.normal 0)

/-- Lane arithmetic shared by the four `match note_type` arms of `generate`:
offset within the first range, or offset within the second range shifted by
the width (35, resp. 9) of the first. -/
def laneIn (lo1 hi1 lo2 hi2 width : Nat) (c : Nat) : Nat :=
  if lo1 ≤ c ∧ c ≤ hi1 then c - lo1
  else if lo2 ≤ c ∧ c ≤ hi2 then c - lo2 + width
  else 0

/-- One iteration of the main loop of `BmsNotes::generate` for the object
`o`, searching `objs` (the sorted, filtered object list) for long-note ends.
`none` models `continue` (no note pushed). -/
def processObject (objs : List NObject) (lnobj : Option Nat) (o : NObject) :
    Option BmsNote :=
  match noteTypeOf lnobj o with
  | none => none
  | some nt =>
    match nt with
    | BmsNoteType.normal k =>
        let lane := laneIn 37 71 73 107 35 o.channel
        match lnobj with
        | some m =>
            -- `i < objects.len()` always holds inside the loop; the
            -- `object.value != lnobj` re-check is what the code performs.
            if o.value ≠ m then
              match objs.find? (fun e =>
                  decide (e.channel = o.channel) && decide (e.value = m)
                    && decide (o.time < e.time)) with
              | some e => some ⟨o.time, lane, BmsNoteType.long k e.time⟩
              | none => some ⟨o.time, lane, BmsNoteType.normal k⟩
            else some ⟨o.time, lane, BmsNoteType.normal k⟩
        | none => some ⟨o.time, lane, BmsNoteType.normal k⟩
    | BmsNoteType.hidden k =>
        some ⟨o.time, laneIn 109 143 145 179 35 o.channel, BmsNoteType.hidden k⟩
    | BmsNoteType.long k _ =>
        let lane := laneIn 181 215 217 251 35 o.channel
        match objs.find? (fun e =>
            decide (e.channel = o.channel) && decide (e.value = o.value)
              && decide (o.time < e.time)) with
        | some e => some ⟨o.time, lane, BmsNoteType.long k e.time⟩
        | none => none
    | BmsNoteType.mine d =>
        some ⟨o.time, laneIn 469 477 505 513 9 o.channel, BmsNoteType.mine d⟩
    | BmsNoteType.bgm k => some ⟨o.time, 0, BmsNoteType.bgm k⟩

/-- The filtered, re-sorted object list `generate` iterates over. -/
def genObjs (objects : List NObject) : List NObject :=
  List.mergeSort (objects.filter fun o => inAnyRange o.channel) nobjLeb

/-- `BmsNotes::generate` (`notes.rs` lines 65–252): filter to the known
channel ranges, sort, then push at most one note per object. -/
def generate (objects : List NObject) (lnobj : Option Nat) : List BmsNote :=
  (genObjs objects).filterMap (processObject (genObjs objects) lnobj)

theorem nobjLeb_trans (a b c : NObject) :
    nobjLeb a b → nobjLeb b c → nobjLeb a c := by
  simp only [nobjLeb, decide_eq_true_eq, nobjLe]
  intro hab hbc
  rcases hab with h | ⟨hc1, h⟩ <;> rcases hbc with h' | ⟨hc2, h'⟩
  · exact Or.inl (lt_trans h h')
  · exact Or.inl (hc2 ▸ h)
  · exact Or.inl (hc1 ▸ h')
  · refine Or.inr ⟨hc1.trans hc2, ?_⟩
    rcases h with h | ⟨ht1, h⟩ <;> rcases h' with h' | ⟨ht2, h'⟩
    · exact Or.inl (lt_trans h h')
    · exact Or.inl (ht2 ▸ h)
    · exact Or.inl (ht1 ▸ h')
    · exact Or.inr ⟨ht1.trans ht2, le_trans h h'⟩

theorem nobjLeb_total (a b : NObject) : nobjLeb a b || nobjLeb b a := by
  simp only [nobjLeb, Bool.or_eq_true, decide_eq_true_eq, nobjLe]
  rcases Nat.lt_trichotomy a.channel b.channel with h | h | h
  · exact Or.inl (Or.inl h)
  · rcases lt_trichotomy a.time b.time with h' | h' | h'
    · exact Or.inl (Or.inr ⟨h, Or.inl h'⟩)
    · rcases Nat.le_total a.value b.value with hv | hv
      · exact Or.inl (Or.inr ⟨h, Or.inr ⟨h', hv⟩⟩)
      · exact Or.inr (Or.inr ⟨h.symm, Or.inr ⟨h'.symm, hv⟩⟩)
    · exact Or.inr (Or.inr ⟨h.symm, Or.inl h'⟩)
  · exact Or.inr (Or.inl h)

theorem objLeb_total (a b : BmsObject) : objLeb a b || objLeb b a := by
  simp only [objLeb, Bool.or_eq_true, decide_eq_true_eq, objLe, timeLt]
  rcases Nat.lt_trichotomy a.channel b.channel with h | h | h
  · exact Or.inl (Or.inl h)
  · rcases Nat.lt_trichotomy a.time.measure b.time.measure with h' | h' | h'
    · exact Or.inl (Or.inr ⟨h, Or.inl (Or.inl h')⟩)
    · rcases lt_trichotomy a.time.fraction b.time.fraction with h'' | h'' | h''
      · exact Or.inl (Or.inr ⟨h, Or.inl (Or.inr ⟨h', h''⟩)⟩)
      · have heq : a.time = b.time := by
          rcases hta : a.time with ⟨m1, f1⟩
          rcases htb : b.time with ⟨m2, f2⟩
          rw [hta, htb] at h' h''
          simp only at h' h''
          simp [h', h'']
        rcases Nat.le_total a.value b.value with hv | hv
        · exact Or.inl (Or.inr ⟨h, Or.inr ⟨heq, hv⟩⟩)
        · exact Or.inr (Or.inr ⟨h.symm, Or.inr ⟨heq.symm, hv⟩⟩)
      · exact Or.inr (Or.inr ⟨h.symm, Or.inl (Or.inr ⟨h'.symm, h''⟩)⟩)
    · exact Or.inr (Or.inr ⟨h.symm, Or.inl (Or.inl h')⟩)
  · exact Or.inr (Or.inl h)

/-! ## Timing extraction (`timing.rs`) -/

/-- The stop extraction of `generate_timings` (`timing.rs` lines 116–121):
keep the channel-`09` objects whose value has a `STOPxx` entry and map each
to `(position, raw STOPxx value)` — the value is stored as parsed, with no
unit conversion.  The `STOPxx` header table is passed in as the association
list `stopIds`. -/
def stopsFromChart (stopIds : List (Nat × Rat)) (objects : List NObject) :
    List (Rat × Rat) :=
  (objects.filter fun o =>
      decide (o.channel = 9) && ((stopIds.find? fun p => p.1 == o.value).isSome)
    ).filterMap fun o =>
      match stopIds.find? fun p => p.1 == o.value with
      | some p => some (o.time, p.2)
      | none => none

/-! ## Timeline sweep (`BmsNotes::find_seconds`, `notes.rs` lines 255–452) -/

/-- The `EventType` enum local to `find_seconds`. -/
inductive EvType where
  | playNote (index : Nat)
  | endLongNote (index : Nat)
  | changeBpm (newBpm : Rat)
  | stopEv (timeStopped : Rat)
deriving DecidableEq, Repr

/-- The `Event` struct local to `find_seconds`. -/
structure Event where
  time : Rat
  evType : EvType
deriving DecidableEq, Repr

/-- Write the first component of slot `i` (`hit_times[index].0 = v`). -/
def setFst (l : List (Rat × Option Rat)) (i : Nat) (v : Rat) :
    List (Rat × Option Rat) :=
  match l, i with
  | [], _ => []
  | p :: t, 0 => (v, p.2) :: t
  | p :: t, Nat.succ k => p :: setFst t k v

/-- Write the second component of slot `i` (`hit_times[index].1 = w`). -/
def setSnd (l : List (Rat × Option Rat)) (i : Nat) (w : Option Rat) :
    List (Rat × Option Rat) :=
  match l, i with
  | [], _ => []
  | p :: t, 0 => (p.1, w) :: t
  | p :: t, Nat.succ k => p :: setSnd t k w

/-- The sweep state of `find_seconds`: `current_quarter_note_duration`,
`offset_time_quarter_notes`, `offset_time_seconds`, and the `hit_times`
vector it fills in. -/
structure SweepState where
  qnd : Rat
  offQ : Rat
  offS : Rat
  hits : List (Rat × Option Rat)
deriving DecidableEq, Repr

/-- One iteration of the `while let Some(event)` loop of `find_seconds`.
Note that the `changeBpm` and `stopEv` arms overwrite `offS` with the
elapsed time of the current segment (the code assigns, it does not add the
previous `offset_time_seconds`). -/
def step (s : SweepState) (e : Event) : SweepState :=
  match e.evType with
  | EvType.playNote i =>
      { s with hits := setFst s.hits i (s.qnd * (e.time - s.offQ) + s.offS) }
  | EvType.endLongNote i =>
      { s with hits := setSnd s.hits i (some (s.qnd * (e.time - s.offQ) + s.offS)) }
  | EvType.changeBpm b =>
      { s with offS := s.qnd * (e.time - s.offQ), offQ := e.time, qnd := 60 / b }
  | EvType.stopEv d =>
      { s with offS := s.qnd * (e.time - s.offQ) + s.qnd * d, offQ := e.time }

/-- The note-event construction loop of `find_seconds`
(`for i in 0..self.notes.len()`): a `PlayNote` event per note, followed by
an `EndLongNote` event when the note is `Long`; `k` is the index of the
first note of `ns` in the full note list. -/
def noteEvents (k : Nat) : List BmsNote → List Event
  | [] => []
  | n :: ns =>
      Event.mk n.time (EvType.playNote k) ::
        (match n.noteType with
         | BmsNoteType.long _ e => [Event.mk e (EvType.endLongNote k)]
         | _ => []) ++ noteEvents (k + 1) ns

/-- `BmsNotes::find_seconds`.  `bpmChanges` and `stops` are the two
`HashMap`s of the `BmsTiming`, as association lists in iteration order;
`oldHits` is the `hit_times` field before the call.  The outer `none`
models the `.expect` panic when no BPM change exists at position zero; on
an empty note list the method returns with `hit_times` untouched.  The
event list is iterated exactly in construction order — the code never
sorts it — and the result is the new `hit_times` field. -/
def findSeconds (notes : List BmsNote) (bpmChanges stops : List (Rat × Rat))
    (oldHits : Option (List (Rat × Option Rat))) :
    Option (Option (List (Rat × Option Rat))) :=
  if notes.isEmpty then some oldHits
  else
    match (bpmChanges.find? fun p => decide (p.1 = 0)).map Prod.snd with
    | none => none
    | some initialBpm =>
      let bpmRest := bpmChanges.filter fun p => !decide (p.1 = 0)
      let events :=
        noteEvents 0 notes
          ++ bpmRest.map (fun p => Event.mk p.1 (EvType.changeBpm p.2))
          ++ stops.map (fun p => Event.mk p.1 (EvType.stopEv p.2))
      let final := events.foldl step
        ⟨60 / initialBpm, 0, 0, List.replicate notes.length (0, none)⟩
      some (some final.hits)

/-- `BmsNotes::generate_with_seconds`: generate the notes, then stamp them. -/
def generateWithSeconds (objects : List NObject) (lnobj : Option Nat)
    (bpmChanges stops : List (Rat × Rat)) :
    Option (Option (List (Rat × Option Rat))) :=
  findSeconds (generate objects lnobj) bpmChanges stops none

/-! ## Helper lemmas about the sweep -/

theorem hits_step_of_timing (s : SweepState) (e : Event)
    (h : (∃ b, e.evType = EvType.changeBpm b) ∨ (∃ d, e.evType = EvType.stopEv d)) :
    (step s e).hits = s.hits := by
  rcases h with ⟨b, hb⟩ | ⟨d, hd⟩
  · simp [step, hb]
  · simp [step, hd]

theorem hits_foldl_of_timing (evs : List Event) :
    ∀ s : SweepState,
      (∀ e ∈ evs, (∃ b, e.evType = EvType.changeBpm b) ∨ (∃ d, e.evType = EvType.stopEv d)) →
      (evs.foldl step s).hits = s.hits := by
  induction evs with
  | nil => intro s _; rfl
  | cons e t ih =>
      intro s h
      rw [List.foldl_cons, ih _ (fun x hx => h x (List.mem_cons_of_mem e hx)),
        hits_step_of_timing s e (h e (List.mem_cons_self e t))]

theorem length_setFst : ∀ (l : List (Rat × Option Rat)) (i : Nat) (v : Rat),
    (setFst l i v).length = l.length := by
  intro l
  induction l with
  | nil => intro i v; cases i <;> rfl
  | cons p t ih => intro i v; cases i with
    | zero => rfl
    | succ k => simp [setFst, ih]

theorem length_setSnd : ∀ (l : List (Rat × Option Rat)) (i : Nat) (w : Option Rat),
    (setSnd l i w).length = l.length := by
  intro l
  induction l with
  | nil => intro i w; cases i <;> rfl
  | cons p t ih => intro i w; cases i with
    | zero => rfl
    | succ k => simp [setSnd, ih]

theorem setFst_eq : ∀ (l : List (Rat × Option Rat)) (i : Nat) (v : Rat)
    (h : i < l.length),
    setFst l i v = l.take i ++ (v, (l.get ⟨i, h⟩).2) :: l.drop (i + 1) := by
  intro l
  induction l with
  | nil => intro i v h; exact absurd h (Nat.not_lt_zero i)
  | cons p t ih =>
      intro i v h
      cases i with
      | zero => rfl
      | succ k =>
          have hk : k < t.length := Nat.lt_of_succ_lt_succ h
          simp [setFst, List.take_succ_cons, List.drop_succ_cons, ih k v hk]

theorem setSnd_setFst_eq : ∀ (l : List (Rat × Option Rat)) (i : Nat) (v : Rat)
    (w : Option Rat) (h : i < l.length),
    setSnd (setFst l i v) i w = l.take i ++ (v, w) :: l.drop (i + 1) := by
  intro l
  induction l with
  | nil => intro i v w h; exact absurd h (Nat.not_lt_zero i)
  | cons p t ih =>
      intro i v w h
      cases i with
      | zero => rfl
      | succ k =>
          have hk : k < t.length := Nat.lt_of_succ_lt_succ h
          simp [setFst, setSnd, List.take_succ_cons, List.drop_succ_cons, ih k v w hk]

/-- What the note-event pass leaves in the `hit_times` slots: slot `i`
receives `qnd * (time_i − offQ) + offS`, with the release slot filled the
same way from the long note's end position and otherwise untouched. -/
def spliceHits (q oq os : Rat) : List BmsNote → List (Rat × Option Rat) →
    List (Rat × Option Rat)
  | [], h => h
  | _ :: _, [] => []
  | n :: ns, s :: h =>
      (q * (n.time - oq) + os,
        match n.noteType with
        | BmsNoteType.long _ e => some (q * (e - oq) + os)
        | _ => s.2) :: spliceHits q oq os ns h

theorem foldl_noteEvents (q oq os : Rat) :
    ∀ (ns : List BmsNote) (k : Nat) (h : List (Rat × Option Rat)),
      k + ns.length ≤ h.length →
      List.foldl step ⟨q, oq, os, h⟩ (noteEvents k ns) =
        ⟨q, oq, os, h.take k ++ spliceHits q oq os ns (h.drop k)⟩ := by
  intro ns
  induction ns with
  | nil =>
      intro k h _
      simp [noteEvents, spliceHits, List.take_append_drop]
  | cons n ns ih =>
      intro k h hlen
      rw [List.length_cons] at hlen
      have hk : k < h.length := by omega
      have hdropk : h.drop k = h[k] :: h.drop (k + 1) :=
        List.drop_eq_getElem_cons hk
      have htake : (h.take k).length = k := by
        rw [List.length_take]; omega
      -- The slot written for this note, and what remains of the list.
      cases hnt : n.noteType with
      | long K E =>
          have hev : noteEvents k (n :: ns) =
              Event.mk n.time (EvType.playNote k) ::
                Event.mk E (EvType.endLongNote k) :: noteEvents (k + 1) ns := by
            simp [noteEvents, hnt]
          have hupd : setSnd (setFst h k (q * (n.time - oq) + os)) k
                (some (q * (E - oq) + os)) =
              h.take k ++ (q * (n.time - oq) + os, some (q * (E - oq) + os)) ::
                h.drop (k + 1) :=
            setSnd_setFst_eq h k _ _ hk
          rw [hev, List.foldl_cons, List.foldl_cons]
          show List.foldl step
              ⟨q, oq, os, setSnd (setFst h k (q * (n.time - oq) + os)) k
                (some (q * (E - oq) + os))⟩ (noteEvents (k + 1) ns) = _
          rw [hupd]
          have hlen2 : k + 1 + ns.length ≤
              (h.take k ++ (q * (n.time - oq) + os, some (q * (E - oq) + os)) ::
                h.drop (k + 1)).length := by
            rw [List.length_append, htake, List.length_cons, List.length_drop]
            omega
          rw [ih (k + 1) _ hlen2]
          have e1 : (h.take k ++ (q * (n.time - oq) + os, some (q * (E - oq) + os)) ::
                h.drop (k + 1)).take (k + 1) =
              h.take k ++ [(q * (n.time - oq) + os, some (q * (E - oq) + os))] := by
            rw [List.take_append_eq_append_take, List.take_of_length_le (by omega), htake]
            simp
          have e2 : (h.take k ++ (q * (n.time - oq) + os, some (q * (E - oq) + os)) ::
                h.drop (k + 1)).drop (k + 1) = h.drop (k + 1) := by
            rw [List.drop_append_eq_append_drop, List.drop_of_length_le (by omega), htake]
            simp
          have e3 : h.take k ++ spliceHits q oq os (n :: ns) (h.drop k) =
              h.take k ++ (q * (n.time - oq) + os, some (q * (E - oq) + os)) ::
                spliceHits q oq os ns (h.drop (k + 1)) := by
            rw [hdropk]
            simp [spliceHits, hnt]
          rw [e1, e2, e3]
          simp
      | normal K => ?_
      | hidden K => ?_
      | bgm K => ?_
      | mine D => ?_
      all_goals {
        have hev : noteEvents k (n :: ns) =
            Event.mk n.time (EvType.playNote k) :: noteEvents (k + 1) ns := by
          simp [noteEvents, hnt]
        have hupd : setFst h k (q * (n.time - oq) + os) =
            h.take k ++ (q * (n.time - oq) + os, (h.get ⟨k, hk⟩).2) ::
              h.drop (k + 1) :=
          setFst_eq h k _ hk
        rw [hev, List.foldl_cons]
        show List.foldl step
            ⟨q, oq, os, setFst h k (q * (n.time - oq) + os)⟩
            (noteEvents (k + 1) ns) = _
        rw [hupd]
        have hlen2 : k + 1 + ns.length ≤
            (h.take k ++ (q * (n.time - oq) + os, (h.get ⟨k, hk⟩).2) ::
              h.drop (k + 1)).length := by
          rw [List.length_append, htake, List.length_cons, List.length_drop]
          omega
        rw [ih (k + 1) _ hlen2]
        have e1 : (h.take k ++ (q * (n.time - oq) + os, (h.get ⟨k, hk⟩).2) ::
              h.drop (k + 1)).take (k + 1) =
            h.take k ++ [(q * (n.time - oq) + os, (h.get ⟨k, hk⟩).2)] := by
          rw [List.take_append_eq_append_take, List.take_of_length_le (by omega), htake]
          simp
        have e2 : (h.take k ++ (q * (n.time - oq) + os, (h.get ⟨k, hk⟩).2) ::
              h.drop (k + 1)).drop (k + 1) = h.drop (k + 1) := by
          rw [List.drop_append_eq_append_drop, List.drop_of_length_le (by omega), htake]
          simp
        have e3 : h.take k ++ spliceHits q oq os (n :: ns) (h.drop k) =
            h.take k ++ (q * (n.time - oq) + os, (h.get ⟨k, hk⟩).2) ::
              spliceHits q oq os ns (h.drop (k + 1)) := by
          rw [hdropk]
          simp [spliceHits, hnt, List.get_eq_getElem]
        rw [e1, e2, e3]
        simp
      }

/-- Closed form of `find_seconds` on a non-empty note list: because the
event vector is iterated in construction order, every hit/end event runs
before any tempo-change or stop event, so the resulting `hit_times` are the
splice of the note events over the initial state alone. -/
theorem findSeconds_closed (notes : List BmsNote) (bpmChanges stops : List (Rat × Rat))
    (oldHits : Option (List (Rat × Option Rat))) (b : Rat)
    (hne : notes ≠ [])
    (hb : (bpmChanges.find? fun p => decide (p.1 = 0)).map Prod.snd = some b) :
    findSeconds notes bpmChanges stops oldHits =
      some (some (spliceHits (60 / b) 0 0 notes
        (List.replicate notes.length ((0 : Rat), (none : Option Rat))))) := by
  unfold findSeconds
  rw [if_neg (by simpa using hne), hb]
  show some (some ((noteEvents 0 notes
      ++ (bpmChanges.filter fun p => !decide (p.1 = 0)).map
          (fun p => Event.mk p.1 (EvType.changeBpm p.2))
      ++ stops.map (fun p => Event.mk p.1 (EvType.stopEv p.2))).foldl step
        ⟨60 / b, 0, 0, List.replicate notes.length (0, none)⟩).hits) = _
  have htail : ∀ e ∈ (bpmChanges.filter fun p => !decide (p.1 = 0)).map
        (fun p => Event.mk p.1 (EvType.changeBpm p.2))
      ++ stops.map (fun p => Event.mk p.1 (EvType.stopEv p.2)),
      (∃ c, e.evType = EvType.changeBpm c) ∨ (∃ d, e.evType = EvType.stopEv d) := by
    intro e he
    rcases List.mem_append.1 he with h | h
    · rcases List.mem_map.1 h with ⟨p, _, rfl⟩
      exact Or.inl ⟨p.2, rfl⟩
    · rcases List.mem_map.1 h with ⟨p, _, rfl⟩
      exact Or.inr ⟨p.2, rfl⟩
  rw [List.append_assoc, List.foldl_append,
    hits_foldl_of_timing _ _ htail,
    foldl_noteEvents (60 / b) 0 0 notes 0 _ (by simp)]
  simp

/-- With no duplicate keys, `find?` for a fixed key is invariant under
permutation of an association list (the content of a `HashMap` determines
the result of a key lookup, whatever the iteration order). -/
theorem find?_key_perm (l1 l2 : List (Rat × Rat))
    (hperm : l1.Perm l2) (hnd : (l1.map Prod.fst).Nodup) :
    (l1.find? fun p => decide (p.1 = 0)) = (l2.find? fun p => decide (p.1 = 0)) := by
  cases h1 : l1.find? fun p => decide (p.1 = 0) with
  | none =>
      rw [List.find?_eq_none] at h1
      symm
      rw [List.find?_eq_none]
      intro x hx
      exact h1 x (hperm.symm.subset hx)
  | some q =>
      have hq1 : q ∈ l1 := List.mem_of_find?_eq_some h1
      have hq0 : q.1 = 0 := by simpa using List.find?_some h1
      cases h2 : l2.find? fun p => decide (p.1 = 0) with
      | none =>
          rw [List.find?_eq_none] at h2
          exact absurd (by simpa using hq0) (h2 q (hperm.subset hq1))
      | some r =>
          have hr2 : r ∈ l1 := hperm.symm.subset (List.mem_of_find?_eq_some h2)
          have hr0 : r.1 = 0 := by simpa using List.find?_some h2
          have : q = r :=
            List.inj_on_of_nodup_map hnd hq1 hr2 (by rw [hq0, hr0])
          rw [this]

theorem length_spliceHits (q oq os : Rat) :
    ∀ (ns : List BmsNote) (h : List (Rat × Option Rat)),
      ns.length ≤ h.length → (spliceHits q oq os ns h).length = h.length := by
  intro ns
  induction ns with
  | nil => intro h _; rfl
  | cons n ns ih =>
      intro h hlen
      cases h with
      | nil => simp at hlen
      | cons s t =>
          rw [List.length_cons, List.length_cons] at hlen
          simp [spliceHits, ih t (by omega)]

theorem get_spliceHits_snd (q oq os : Rat) :
    ∀ (ns : List BmsNote) (h : List (Rat × Option Rat)) (i : Nat)
      (hi : i < ns.length) (hh : ns.length ≤ h.length)
      (h2 : i < (spliceHits q oq os ns h).length),
      ((spliceHits q oq os ns h).get ⟨i, h2⟩).2 =
        match (ns.get ⟨i, hi⟩).noteType with
        | BmsNoteType.long _ e => some (q * (e - oq) + os)
        | _ => (h.get ⟨i, by omega⟩).2 := by
  intro ns
  induction ns with
  | nil => intro h i hi; simp at hi
  | cons n ns ih =>
      intro h i hi hh h2
      cases h with
      | nil => simp at hh
      | cons s t =>
          rw [List.length_cons, List.length_cons] at hh
          cases i with
          | zero => simp [spliceHits]
          | succ j =>
              rw [List.length_cons] at hi
              have hj : j < ns.length := by omega
              simp only [spliceHits, List.get_cons_succ]
              exact ih t j hj (by omega) _

/-! ## Helper lemmas for the `update_objects` invariant -/

theorem timeLt_trans {s t u : BmsTime} (h1 : timeLt s t) (h2 : timeLt t u) :
    timeLt s u := by
  unfold timeLt at *
  rcases h1 with h | ⟨e1, h⟩ <;> rcases h2 with h' | ⟨e2, h'⟩
  · exact Or.inl (lt_trans h h')
  · exact Or.inl (e2 ▸ h)
  · exact Or.inl (e1 ▸ h')
  · exact Or.inr ⟨e1.trans e2, lt_trans h h'⟩

theorem timeLt_irrefl (t : BmsTime) : ¬ timeLt t t := by
  unfold timeLt
  rintro (h | ⟨_, h⟩)
  · exact lt_irrefl _ h
  · exact lt_irrefl _ h

/-- A lexicographic sandwich: if `a ≤ b ≤ c` in the derived `Ord` order and
`a` and `c` agree on `(channel, time)`, then so does `b`. -/
theorem objLe_sandwich {a b c : BmsObject} (h1 : objLeb a b = true)
    (h2 : objLeb b c = true) (hch : a.channel = c.channel)
    (ht : a.time = c.time) : a.channel = b.channel ∧ a.time = b.time := by
  simp only [objLeb, decide_eq_true_eq, objLe] at h1 h2
  have hbch : a.channel = b.channel := by
    rcases h1 with h | ⟨e, _⟩
    · rcases h2 with h' | ⟨e', _⟩
      · omega
      · omega
    · exact e
  refine ⟨hbch, ?_⟩
  rcases h1 with h | ⟨_, h1t⟩
  · omega
  rcases h2 with h | ⟨_, h2t⟩
  · omega
  rcases h1t with h | ⟨e, _⟩
  · rcases h2t with h' | ⟨e', _⟩
    · have hac : timeLt a.time c.time := timeLt_trans h h'
      rw [← ht] at hac
      exact absurd hac (timeLt_irrefl a.time)
    · have hac : timeLt a.time c.time := e' ▸ h
      rw [← ht] at hac
      exact absurd hac (timeLt_irrefl a.time)
  · exact e

theorem dedupByGo_sublist (r : α → α → Bool) :
    ∀ (ys : List α) (prev : α), List.Sublist (dedupByGo r prev ys) ys := by
  intro ys
  induction ys with
  | nil => intro prev; simp [dedupByGo]
  | cons y t ih =>
      intro prev
      unfold dedupByGo
      by_cases h : r y prev = true
      · rw [if_pos h]
        exact (ih prev).trans (List.sublist_cons_self y t)
      · rw [if_neg h]
        exact (ih y).cons₂ y

theorem dedupBy_sublist (r : α → α → Bool) (l : List α) :
    List.Sublist (dedupBy r l) l := by
  cases l with
  | nil => simp [dedupBy]
  | cons x xs => exact (dedupByGo_sublist r xs x).cons₂ x

/-- The guarantee established by `dedup_by` over a sorted run: every element
that `dedupByGo` keeps differs from `prev` on `(channel, time)` unless the
channel is the BGM channel `1`, and the kept elements pairwise satisfy the
same condition. -/
theorem dedupByGo_spec :
    ∀ (ys : List BmsObject) (prev : BmsObject),
      List.Pairwise (fun a b => objLeb a b = true) (prev :: ys) →
      (∀ z ∈ dedupByGo dedupRel prev ys,
          (prev.channel = z.channel ∧ prev.time = z.time) → prev.channel = 1) ∧
      List.Pairwise
        (fun a b => (a.channel = b.channel ∧ a.time = b.time) → a.channel = 1)
        (dedupByGo dedupRel prev ys) := by
  intro ys
  induction ys with
  | nil =>
      intro prev _
      exact ⟨by simp [dedupByGo], by simp [dedupByGo]⟩
  | cons y t ih =>
      intro prev hsort
      rw [List.pairwise_cons] at hsort
      obtain ⟨hprev, htail⟩ := hsort
      have hpy : objLeb prev y = true := hprev y (List.mem_cons_self y t)
      rw [List.pairwise_cons] at htail
      obtain ⟨hyt, htt⟩ := htail
      unfold dedupByGo
      by_cases hr : dedupRel y prev = true
      · rw [if_pos hr]
        have hsort' : List.Pairwise (fun a b => objLeb a b = true) (prev :: t) := by
          rw [List.pairwise_cons]
          exact ⟨fun z hz => hprev z (List.mem_cons_of_mem y hz),
            List.Pairwise.of_cons (by rw [List.pairwise_cons]; exact ⟨hyt, htt⟩)⟩
        exact ih prev hsort'
      · rw [if_neg hr]
        have hfalse : ¬(y.channel = prev.channel ∧ y.time = prev.time ∧
            y.channel ≠ 1 ∧ prev.channel ≠ 1) := by
          intro ⟨e1, e2, e3, e4⟩
          apply hr
          simp [dedupRel, objEqb, e1, e2, e3, e4]
        have ihy := ih y (by rw [List.pairwise_cons]; exact ⟨hyt, htt⟩)
        constructor
        · intro z hz hk
          rcases List.mem_cons.1 hz with rfl | hz'
          · -- the first kept element is `y` itself
            by_contra hne
            exact hfalse ⟨hk.1.symm, hk.2.symm, fun h1 => hne (hk.1 ▸ h1), hne⟩
          · have hzmem : z ∈ t := (dedupByGo_sublist dedupRel t y).subset hz'
            have hyz : objLeb y z = true := hyt z hzmem
            have hsand := objLe_sandwich hpy hyz hk.1 hk.2
            by_contra hne
            exact hfalse ⟨hsand.1.symm, hsand.2.symm,
              fun h1 => hne (hsand.1 ▸ h1), hne⟩
        · rw [List.pairwise_cons]
          exact ⟨fun z hz hk => ihy.1 z hz hk, ihy.2⟩

/-- Combined sorted+dedup specification of `update_objects` on an already
sorted list. -/
theorem dedupBy_spec (l : List BmsObject)
    (hs : List.Pairwise (fun a b => objLeb a b = true) l) :
    List.Pairwise
      (fun a b => (a.channel = b.channel ∧ a.time = b.time) → a.channel = 1)
      (dedupBy dedupRel l) := by
  cases l with
  | nil => simp [dedupBy]
  | cons x xs =>
      have hspec := dedupByGo_spec xs x hs
      unfold dedupBy
      rw [List.pairwise_cons]
      exact ⟨fun z hz hk => hspec.1 z hz hk, hspec.2⟩

/-! ## Helper lemmas for the note generator -/

theorem nobjLe_refl (a : NObject) : nobjLe a a :=
  Or.inr ⟨rfl, Or.inr ⟨rfl, le_refl _⟩⟩

theorem nobjLe_time_le {a b : NObject} (h : nobjLe a b)
    (hch : a.channel = b.channel) : a.time ≤ b.time := by
  rcases h with h | ⟨_, h | ⟨e, _⟩⟩
  · omega
  · exact le_of_lt h
  · exact le_of_eq e

/-- The sorted object list `generate` works on. -/
theorem sorted_genObjs (objects : List NObject) :
    List.Pairwise (fun a b => nobjLeb a b = true) (genObjs objects) :=
  List.sorted_mergeSort
    (fun a b c hab hbc => nobjLeb_trans a b c hab hbc)
    (fun a b => nobjLeb_total a b)
    (objects.filter fun o => inAnyRange o.channel)

/-- In a sorted list, `find?` returns a minimal element among those
satisfying the predicate. -/
theorem find?_min_of_sorted {p : NObject → Bool} :
    ∀ (l : List NObject),
      List.Pairwise (fun a b => nobjLeb a b = true) l →
      ∀ a, l.find? p = some a → ∀ b ∈ l, p b = true → nobjLe a b := by
  intro l
  induction l with
  | nil => intro _ a ha; simp at ha
  | cons x xs ih =>
      intro hs a ha b hb hpb
      rw [List.pairwise_cons] at hs
      cases hp : p x with
      | true =>
          rw [List.find?_cons_of_pos _ hp] at ha
          cases ha
          rcases List.mem_cons.1 hb with rfl | hb'
          · exact nobjLe_refl b
          · have := hs.1 b hb'
            simpa [nobjLeb] using this
      | false =>
          rw [List.find?_cons_of_neg _ (by simp [hp])] at ha
          rcases List.mem_cons.1 hb with rfl | hb'
          · rw [hp] at hpb; cases hpb
          · exact ih hs.2 a ha b hb' hpb

/-! ## Claim theorems -/

/-- C1: the claim says the timeline sweep processes the merged event list
in ascending position order (tie-break hit/end < tempo-change < pause).
It is false: `find_seconds` never sorts the event vector, so events run in
construction order — all note events first, with the initial tempo.  With
tempo 120 at position 0, tempo 60 at position 4, and a single note at
position 6, position-ordered processing would stamp the note
`4·(60/120) + 2·(60/60) = 4`; the code stamps `6·(60/120) = 3` because the
note event is processed before the tempo-change event at position 4. -/
theorem claim_C1_events_never_sorted :
    findSeconds [⟨6, 0, BmsNoteType.normal 1⟩] [(0, 120), (4, 60)] [] none =
      some (some [(3, none)]) := by
  norm_num [findSeconds, noteEvents, step, setFst, setSnd]

/-- C2: the claim says every tempo-change event accumulates
`offsetSeconds += elapsed`, and on its own example (tempo 120 at 0, tempo
60 at 4, notes at 2 and 6) predicts hit times 1.0 and 4.0.  The code gives
1.0 and 3.0: the note at position 6 is stamped before the tempo change is
ever processed (the event list is not sorted), and the `ChangeBpm` arm
overwrites `offset_time_seconds` with the elapsed time instead of adding
to it. -/
theorem claim_C2_tempo_example :
    findSeconds [⟨2, 0, BmsNoteType.normal 1⟩, ⟨6, 0, BmsNoteType.normal 1⟩]
      [(0, 120), (4, 60)] [] none =
      some (some [(1, none), (3, none)]) := by
  norm_num [findSeconds, noteEvents, step, setFst, setSnd]

/-- C3: the claim says a stop entry pauses the timeline for
`quarterNoteDuration * (stopValue/192*4)` seconds.  In the code,
`generate_timings` stores the raw `STOPxx` value (first conjunct: a
channel-9 object with value 1 and `STOP01 = 192` yields the raw entry
`(2, 192)`, not `(2, 4)` quarter notes), and `find_seconds` multiplies
that raw value by the quarter-note duration with no `/192*4` conversion —
moreover, since the event list is never sorted, stop events run after all
note events, so no note is delayed at all: with BPM 60 and a
192-unit stop at position 2, the note at position 4 is stamped 4 seconds,
where the claim predicts `4 + 1·(192/192·4) = 8`. -/
theorem claim_C3_stop_not_converted :
    stopsFromChart [(1, 192)] [⟨9, 2, 1⟩] = [(2, 192)] ∧
    findSeconds [⟨0, 0, BmsNoteType.normal 1⟩, ⟨4, 0, BmsNoteType.normal 1⟩]
      [(0, 60)] [(2, 192)] none =
      some (some [(0, none), (4, none)]) := by
  constructor
  · norm_num [stopsFromChart, List.filterMap_cons, List.find?]
  · norm_num [findSeconds, noteEvents, step, setFst, setSnd]

/-- The dedup pass never removes a BGM object: a candidate is dropped only
when `dedupRel` holds, which requires `channel != 1` on both sides, so the
channel-1 subsequence is untouched. -/
theorem filter_bgm_dedupByGo :
    ∀ (ys : List BmsObject) (prev : BmsObject),
      (dedupByGo dedupRel prev ys).filter (fun o => decide (o.channel = 1)) =
        ys.filter (fun o => decide (o.channel = 1)) := by
  intro ys
  induction ys with
  | nil => intro prev; rfl
  | cons y t ih =>
      intro prev
      unfold dedupByGo
      by_cases hr : dedupRel y prev = true
      · have hy : ¬ y.channel = 1 := by
          have := hr
          simp only [dedupRel, Bool.and_eq_true, bne_iff_ne, Bool.not_eq_true',
            beq_eq_false_iff_ne] at this
          exact this.1.2
        rw [if_pos hr, List.filter_cons, if_neg (by simpa using hy)]
        exact ih prev
      · rw [if_neg hr, List.filter_cons, List.filter_cons]
        by_cases hy : y.channel = 1
        · rw [if_pos (by simpa using hy), if_pos (by simpa using hy), ih y]
        · rw [if_neg (by simpa using hy), if_neg (by simpa using hy), ih y]

theorem filter_bgm_dedupBy (l : List BmsObject) :
    (dedupBy dedupRel l).filter (fun o => decide (o.channel = 1)) =
      l.filter (fun o => decide (o.channel = 1)) := by
  cases l with
  | nil => rfl
  | cons x xs =>
      unfold dedupBy
      rw [List.filter_cons, List.filter_cons]
      by_cases hx : x.channel = 1
      · rw [if_pos (by simpa using hx), if_pos (by simpa using hx),
          filter_bgm_dedupByGo xs x]
      · rw [if_neg (by simpa using hx), if_neg (by simpa using hx),
          filter_bgm_dedupByGo xs x]

/-- C4: recomputing the per-note timestamps from identical inputs is
deterministic.  The only nondeterminism in `find_seconds` is the iteration
order of the two `HashMap`s, so the statement: for any two iteration
orders of the same BPM map (no duplicate keys) and of the same stop map,
the output is identical. -/
theorem claim_C4_determinism (notes : List BmsNote)
    (bpm1 bpm2 stops1 stops2 : List (Rat × Rat))
    (old : Option (List (Rat × Option Rat)))
    (hperm : bpm1.Perm bpm2) (hnd : (bpm1.map Prod.fst).Nodup)
    (_hsperm : stops1.Perm stops2) :
    findSeconds notes bpm1 stops1 old = findSeconds notes bpm2 stops2 old := by
  by_cases hne : notes = []
  · subst hne; simp [findSeconds]
  · have hfind := find?_key_perm bpm1 bpm2 hperm hnd
    cases hb : (bpm1.find? fun p => decide (p.1 = 0)).map Prod.snd with
    | none =>
        have h2 : (bpm2.find? fun p => decide (p.1 = 0)).map Prod.snd = none := by
          rw [← hfind]; exact hb
        unfold findSeconds
        rw [if_neg (by simpa using hne), if_neg (by simpa using hne), hb, h2]
    | some b =>
        have h2 : (bpm2.find? fun p => decide (p.1 = 0)).map Prod.snd = some b := by
          rw [← hfind]; exact hb
        rw [findSeconds_closed notes bpm1 stops1 old b hne hb,
          findSeconds_closed notes bpm2 stops2 old b hne h2]

theorem claim_C4_witness :
    findSeconds [⟨2, 0, BmsNoteType.normal 1⟩] [(0, 120), (4, 60)] [(8, 2), (9, 3)] none =
      findSeconds [⟨2, 0, BmsNoteType.normal 1⟩] [(4, 60), (0, 120)] [(9, 3), (8, 2)] none :=
  claim_C4_determinism _ _ _ _ _ _ (List.Perm.swap _ _ _)
    (by norm_num) (List.Perm.swap _ _ _)

/-- C10: on a non-empty note list (and a timing model with a BPM change at
position 0, without which the code panics), `find_seconds` sets
`hit_times` to `Some` vector of the same length as the note list, and slot
`i` carries a release time exactly when note `i` is a `Long` note; on an
empty note list the method returns with `hit_times` untouched. -/
theorem claim_C10_hit_times_shape (notes : List BmsNote)
    (bpm stops : List (Rat × Rat)) (old : Option (List (Rat × Option Rat))) :
    (notes = [] → findSeconds notes bpm stops old = some old) ∧
    (∀ b, (bpm.find? fun p => decide (p.1 = 0)).map Prod.snd = some b →
      notes ≠ [] →
      ∃ ht, findSeconds notes bpm stops old = some (some ht) ∧
        ht.length = notes.length ∧
        ∀ (i : Nat) (hi : i < notes.length) (h2 : i < ht.length),
          (((ht.get ⟨i, h2⟩).2).isSome = true ↔
            ∃ k e, (notes.get ⟨i, hi⟩).noteType = BmsNoteType.long k e)) := by
  constructor
  · intro h; subst h; simp [findSeconds]
  · intro b hb hne
    rw [findSeconds_closed notes bpm stops old b hne hb]
    refine ⟨_, rfl, ?_, ?_⟩
    · rw [length_spliceHits (60 / b) 0 0 notes
        (List.replicate notes.length (0, none)) (by simp)]
      exact List.length_replicate _ _
    · intro i hi h2
      rw [get_spliceHits_snd (60 / b) 0 0 notes _ i hi (by simp) h2]
      cases hnt : (notes.get ⟨i, hi⟩).noteType with
      | long K E => exact ⟨fun _ => ⟨K, E, rfl⟩, fun _ => rfl⟩
      | normal K => simp [List.get_eq_getElem, List.getElem_replicate]
      | hidden K => simp [List.get_eq_getElem, List.getElem_replicate]
      | bgm K => simp [List.get_eq_getElem, List.getElem_replicate]
      | mine D => simp [List.get_eq_getElem, List.getElem_replicate]

theorem claim_C10_witness :
    ∃ ht, findSeconds [⟨0, 0, BmsNoteType.long 1 2⟩] [(0, 120)] [] none =
        some (some ht) ∧
      ht.length = ([⟨0, 0, BmsNoteType.long 1 2⟩] : List BmsNote).length ∧
      ∀ (i : Nat) (hi : i < ([⟨0, 0, BmsNoteType.long 1 2⟩] : List BmsNote).length)
        (h2 : i < ht.length),
        (((ht.get ⟨i, h2⟩).2).isSome = true ↔
          ∃ k e, ((([⟨0, 0, BmsNoteType.long 1 2⟩] : List BmsNote).get ⟨i, hi⟩)).noteType =
            BmsNoteType.long k e) :=
  (claim_C10_hit_times_shape _ _ _ _).2 120 (by norm_num [List.find?]) (by simp)

theorem laneIn_lt (lo1 hi1 lo2 hi2 w c K : Nat) (h1 : hi1 - lo1 < K)
    (h2 : hi2 - lo2 + w < K) (h0 : 0 < K) : laneIn lo1 hi1 lo2 hi2 w c < K := by
  unfold laneIn
  split_ifs <;> omega

/-- C7: with a decoded `LNOBJ` value `M`, a visible-channel object whose
value is `M` is never emitted; every other visible-channel object becomes a
`Long` note ending at the position of the next (earliest strictly later)
same-channel object with value `M`, and stays `Normal` when none exists.
`generate` is exactly `filterMap` of `processObject` over the sorted,
filtered object list `genObjs`. -/
theorem claim_C7_lnobj_promotion (objects : List NObject) (M : Nat) (o : NObject)
    (_ho : o ∈ genObjs objects)
    (hvis : (37 ≤ o.channel ∧ o.channel ≤ 71) ∨ (73 ≤ o.channel ∧ o.channel ≤ 107)) :
    (o.value = M → processObject (genObjs objects) (some M) o = none) ∧
    (o.value ≠ M →
      ∃ note, processObject (genObjs objects) (some M) o = some note ∧
        note.time = o.time ∧
        ((∃ e ∈ genObjs objects,
            e.channel = o.channel ∧ e.value = M ∧ o.time < e.time) →
          ∃ e ∈ genObjs objects,
            e.channel = o.channel ∧ e.value = M ∧ o.time < e.time ∧
            note.noteType = BmsNoteType.long o.value e.time ∧
            ∀ e' ∈ genObjs objects,
              e'.channel = o.channel → e'.value = M → o.time < e'.time →
                e.time ≤ e'.time) ∧
        ((¬ ∃ e ∈ genObjs objects,
            e.channel = o.channel ∧ e.value = M ∧ o.time < e.time) →
          note.noteType = BmsNoteType.normal o.value)) := by
  have hch1 : ¬ o.channel = 1 := by
    rcases hvis with ⟨h, _⟩ | ⟨h, _⟩ <;> omega
  constructor
  · intro hv
    have hntM : noteTypeOf (some M) o = none := by
      unfold noteTypeOf
      rw [if_neg hch1, if_pos hvis]
      simp [hv]
    simp [processObject, hntM]
  · intro hv
    have hnt : noteTypeOf (some M) o = some (BmsNoteType.normal o.value) := by
      unfold noteTypeOf
      rw [if_neg hch1, if_pos hvis]
      simp [hv]
    cases hf : (genObjs objects).find? (fun e =>
        decide (e.channel = o.channel) && decide (e.value = M)
          && decide (o.time < e.time)) with
    | some e =>
        have hmem := List.mem_of_find?_eq_some hf
        have hpe := List.find?_some hf
        simp only [Bool.and_eq_true, decide_eq_true_eq] at hpe
        refine ⟨⟨o.time, laneIn 37 71 73 107 35 o.channel,
          BmsNoteType.long o.value e.time⟩, ?_, rfl, ?_, ?_⟩
        · simp [processObject, hnt, hf, hv]
        · intro _
          refine ⟨e, hmem, hpe.1.1, hpe.1.2, hpe.2, rfl, ?_⟩
          intro e' he' h1 h2 h3
          have hmin := find?_min_of_sorted (genObjs objects)
            (sorted_genObjs objects) e hf e' he' (by simp [h1, h2, h3])
          exact nobjLe_time_le hmin (by rw [hpe.1.1, h1])
        · intro hnone
          exact absurd ⟨e, hmem, hpe.1.1, hpe.1.2, hpe.2⟩ hnone
    | none =>
        refine ⟨⟨o.time, laneIn 37 71 73 107 35 o.channel,
          BmsNoteType.normal o.value⟩, ?_, rfl, ?_, ?_⟩
        · simp [processObject, hnt, hf, hv]
        · rintro ⟨e, hmem, h1, h2, h3⟩
          rw [List.find?_eq_none] at hf
          exact absurd (by simp [h1, h2, h3]) (hf e hmem)
        · intro _; rfl

theorem claim_C7_witness :
    processObject (genObjs [⟨37, 0, 5⟩, ⟨37, 10, 20⟩]) (some 20) ⟨37, 10, 20⟩ = none ∧
    ∃ note, processObject (genObjs [⟨37, 0, 5⟩, ⟨37, 10, 20⟩]) (some 20) ⟨37, 0, 5⟩ =
      some note ∧ note.time = 0 := by
  have h1 := claim_C7_lnobj_promotion [⟨37, 0, 5⟩, ⟨37, 10, 20⟩] 20 ⟨37, 10, 20⟩
    (by simp [genObjs, inAnyRange, RANGES]) (by norm_num)
  have h2 := claim_C7_lnobj_promotion [⟨37, 0, 5⟩, ⟨37, 10, 20⟩] 20 ⟨37, 0, 5⟩
    (by simp [genObjs, inAnyRange, RANGES]) (by norm_num)
  refine ⟨h1.1 rfl, ?_⟩
  obtain ⟨note, hp, ht, _, _⟩ := h2.2 (by norm_num)
  exact ⟨note, hp, ht⟩

/-- C8: an object in a dedicated long-note channel with no strictly later
same-channel same-value object produces no note at all; when such an
object exists, the note is `Long` ending at the earliest such position. -/
theorem claim_C8_unterminated_long (objects : List NObject) (lnobj : Option Nat)
    (o : NObject) (_ho : o ∈ genObjs objects)
    (hln : (181 ≤ o.channel ∧ o.channel ≤ 215) ∨ (217 ≤ o.channel ∧ o.channel ≤ 251)) :
    ((¬ ∃ e ∈ genObjs objects,
        e.channel = o.channel ∧ e.value = o.value ∧ o.time < e.time) →
      processObject (genObjs objects) lnobj o = none) ∧
    ((∃ e ∈ genObjs objects,
        e.channel = o.channel ∧ e.value = o.value ∧ o.time < e.time) →
      ∃ e ∈ genObjs objects,
        e.channel = o.channel ∧ e.value = o.value ∧ o.time < e.time ∧
        (∃ note, processObject (genObjs objects) lnobj o = some note ∧
          note.time = o.time ∧ note.noteType = BmsNoteType.long o.value e.time) ∧
        ∀ e' ∈ genObjs objects,
          e'.channel = o.channel → e'.value = o.value → o.time < e'.time →
            e.time ≤ e'.time) := by
  have hnt : noteTypeOf lnobj o = some (BmsNoteType.long o.value 0) := by
    unfold noteTypeOf
    rw [if_neg (by rcases hln with ⟨h, _⟩ | ⟨h, _⟩ <;> omega),
      if_neg (by rcases hln with ⟨h, h'⟩ | ⟨h, h'⟩ <;> omega),
      if_neg (by rcases hln with ⟨h, h'⟩ | ⟨h, h'⟩ <;> omega),
      if_pos hln]
  constructor
  · intro hnone
    have hf : (genObjs objects).find? (fun e =>
        decide (e.channel = o.channel) && decide (e.value = o.value)
          && decide (o.time < e.time)) = none := by
      rw [List.find?_eq_none]
      intro x hx
      simp only [Bool.and_eq_true, decide_eq_true_eq]
      rintro ⟨⟨h1, h2⟩, h3⟩
      exact hnone ⟨x, hx, h1, h2, h3⟩
    simp [processObject, hnt, hf]
  · rintro ⟨e0, hm0, h01, h02, h03⟩
    cases hf : (genObjs objects).find? (fun e =>
        decide (e.channel = o.channel) && decide (e.value = o.value)
          && decide (o.time < e.time)) with
    | none =>
        rw [List.find?_eq_none] at hf
        exact absurd (by simp [h01, h02, h03]) (hf e0 hm0)
    | some e =>
        have hmem := List.mem_of_find?_eq_some hf
        have hpe := List.find?_some hf
        simp only [Bool.and_eq_true, decide_eq_true_eq] at hpe
        refine ⟨e, hmem, hpe.1.1, hpe.1.2, hpe.2,
          ⟨⟨o.time, laneIn 181 215 217 251 35 o.channel,
            BmsNoteType.long o.value e.time⟩, ?_, rfl, rfl⟩, ?_⟩
        · simp [processObject, hnt, hf]
        · intro e' he' h1 h2 h3
          have hmin := find?_min_of_sorted (genObjs objects)
            (sorted_genObjs objects) e hf e' he' (by simp [h1, h2, h3])
          exact nobjLe_time_le hmin (by rw [hpe.1.1, h1])

theorem claim_C8_witness :
    processObject (genObjs [⟨181, 0, 5⟩]) none ⟨181, 0, 5⟩ = none ∧
    ∃ e ∈ genObjs [⟨181, 0, 5⟩, ⟨181, 2, 5⟩],
      e.channel = 181 ∧ e.value = 5 ∧ (0 : Rat) < e.time ∧
      (∃ note, processObject (genObjs [⟨181, 0, 5⟩, ⟨181, 2, 5⟩]) none ⟨181, 0, 5⟩ =
        some note ∧ note.time = 0 ∧ note.noteType = BmsNoteType.long 5 e.time) ∧
      ∀ e' ∈ genObjs [⟨181, 0, 5⟩, ⟨181, 2, 5⟩],
        e'.channel = 181 → e'.value = 5 → (0 : Rat) < e'.time → e.time ≤ e'.time := by
  constructor
  · have h1 := claim_C8_unterminated_long [⟨181, 0, 5⟩] none ⟨181, 0, 5⟩
      (by simp [genObjs, inAnyRange, RANGES]) (by norm_num)
    refine h1.1 ?_
    rintro ⟨e, hmem, h1', h2', h3'⟩
    simp only [genObjs, inAnyRange, RANGES, List.mem_mergeSort, List.mem_filter,
      List.mem_singleton] at hmem
    rcases hmem with ⟨rfl, _⟩
    norm_num at h3'
  · have h2 := claim_C8_unterminated_long [⟨181, 0, 5⟩, ⟨181, 2, 5⟩] none ⟨181, 0, 5⟩
      (by simp [genObjs, inAnyRange, RANGES]) (by norm_num)
    exact h2.2 ⟨⟨181, 2, 5⟩, by simp [genObjs, inAnyRange, RANGES], rfl, rfl, by norm_num⟩

/-- C9 counterexample: the claim says visible, invisible, long-note and
landmine notes occupy pairwise disjoint lane ranges.  False: a visible
object on channel `11` (decimal 37) and an invisible object on channel
`31` (decimal 109) are both assigned lane 0 — kinds are distinguished by
the note type, not the lane number. -/
theorem claim_C9_lane_overlap :
    generate [⟨37, 0, 1⟩, ⟨109, 0, 1⟩] none =
      [⟨0, 0, BmsNoteType.normal 1⟩, ⟨0, 0, BmsNoteType.hidden 1⟩] ∧
    (generate [⟨37, 0, 1⟩, ⟨109, 0, 1⟩] none).map BmsNote.lane = [0, 0] ∧
    (∃ n1 ∈ generate [⟨37, 0, 1⟩, ⟨109, 0, 1⟩] none,
      ∃ n2 ∈ generate [⟨37, 0, 1⟩, ⟨109, 0, 1⟩] none,
        n1.lane = n2.lane ∧ n1.noteType = BmsNoteType.normal 1 ∧
          n2.noteType = BmsNoteType.hidden 1) := by
  have h : generate [⟨37, 0, 1⟩, ⟨109, 0, 1⟩] none =
      [⟨0, 0, BmsNoteType.normal 1⟩, ⟨0, 0, BmsNoteType.hidden 1⟩] := by
    norm_num [generate, genObjs, processObject, noteTypeOf, laneIn, inAnyRange,
      RANGES, List.mergeSort, nobjLeb, nobjLe, List.filterMap_cons, List.filterMap_nil]
  refine ⟨h, by rw [h]; rfl, ?_⟩
  refine ⟨⟨0, 0, BmsNoteType.normal 1⟩, by rw [h]; exact List.mem_cons_self _ _,
    ⟨0, 0, BmsNoteType.hidden 1⟩, ?_, rfl, rfl, rfl⟩
  rw [h]
  exact List.mem_cons_of_mem _ (List.mem_cons_self _ _)

/-- C9 amended: lanes are offsets within each kind's own channel range
(with the 2P half shifted by the 1P width), so visible, invisible and
long-note lanes all lie in `0..=69` and landmine lanes in `0..=17`; the
ranges of different kinds coincide instead of being disjoint, and the note
kind, not the lane number, tells them apart. -/
theorem claim_C9_lane_bounds (objs : List NObject) (lnobj : Option Nat)
    (o : NObject) (note : BmsNote)
    (h : processObject objs lnobj o = some note) :
    note.lane < 70 ∧ ∀ d, note.noteType = BmsNoteType.mine d → note.lane < 18 := by
  rcases h2 : noteTypeOf lnobj o with _ | nt
  · have hp : processObject objs lnobj o = none := by simp [processObject, h2]
    rw [hp] at h
    exact Option.noConfusion h
  · cases nt with
    | normal k =>
        cases lnobj with
        | none =>
            have hp : processObject objs none o =
                some ⟨o.time, laneIn 37 71 73 107 35 o.channel, BmsNoteType.normal k⟩ := by
              simp [processObject, h2]
            rw [hp] at h
            have he := Option.some.inj h
            subst he
            exact ⟨laneIn_lt _ _ _ _ _ _ _ (by norm_num) (by norm_num) (by norm_num),
              fun d hd => BmsNoteType.noConfusion hd⟩
        | some m =>
            by_cases hv : o.value = m
            · have hp : processObject objs (some m) o =
                  some ⟨o.time, laneIn 37 71 73 107 35 o.channel, BmsNoteType.normal k⟩ := by
                simp [processObject, h2, hv]
              rw [hp] at h
              have he := Option.some.inj h
              subst he
              exact ⟨laneIn_lt _ _ _ _ _ _ _ (by norm_num) (by norm_num) (by norm_num),
                fun d hd => BmsNoteType.noConfusion hd⟩
            · cases hfind : objs.find? (fun e =>
                  decide (e.channel = o.channel) && decide (e.value = m)
                    && decide (o.time < e.time)) with
              | some e =>
                  have hp : processObject objs (some m) o =
                      some ⟨o.time, laneIn 37 71 73 107 35 o.channel,
                        BmsNoteType.long k e.time⟩ := by
                    simp [processObject, h2, hv, hfind]
                  rw [hp] at h
                  have he := Option.some.inj h
                  subst he
                  exact ⟨laneIn_lt _ _ _ _ _ _ _ (by norm_num) (by norm_num) (by norm_num),
                    fun d hd => BmsNoteType.noConfusion hd⟩
              | none =>
                  have hp : processObject objs (some m) o =
                      some ⟨o.time, laneIn 37 71 73 107 35 o.channel,
                        BmsNoteType.normal k⟩ := by
                    simp [processObject, h2, hv, hfind]
                  rw [hp] at h
                  have he := Option.some.inj h
                  subst he
                  exact ⟨laneIn_lt _ _ _ _ _ _ _ (by norm_num) (by norm_num) (by norm_num),
                    fun d hd => BmsNoteType.noConfusion hd⟩
    | hidden k =>
        have hp : processObject objs lnobj o =
            some ⟨o.time, laneIn 109 143 145 179 35 o.channel, BmsNoteType.hidden k⟩ := by
          simp [processObject, h2]
        rw [hp] at h
        have he := Option.some.inj h
        subst he
        exact ⟨laneIn_lt _ _ _ _ _ _ _ (by norm_num) (by norm_num) (by norm_num),
          fun d hd => BmsNoteType.noConfusion hd⟩
    | long k e0 =>
        cases hfind : objs.find? (fun e =>
            decide (e.channel = o.channel) && decide (e.value = o.value)
              && decide (o.time < e.time)) with
        | some e =>
            have hp : processObject objs lnobj o =
                some ⟨o.time, laneIn 181 215 217 251 35 o.channel,
                  BmsNoteType.long k e.time⟩ := by
              simp [processObject, h2, hfind]
            rw [hp] at h
            have he := Option.some.inj h
            subst he
            exact ⟨laneIn_lt _ _ _ _ _ _ _ (by norm_num) (by norm_num) (by norm_num),
              fun d hd => BmsNoteType.noConfusion hd⟩
        | none =>
            have hp : processObject objs lnobj o = none := by
              simp [processObject, h2, hfind]
            rw [hp] at h
            exact Option.noConfusion h
    | bgm k =>
        have hp : processObject objs lnobj o =
            some ⟨o.time, 0, BmsNoteType.bgm k⟩ := by
          simp [processObject, h2]
        rw [hp] at h
        have he := Option.some.inj h
        subst he
        exact ⟨by norm_num, fun d hd => BmsNoteType.noConfusion hd⟩
    | mine d0 =>
        have hp : processObject objs lnobj o =
            some ⟨o.time, laneIn 469 477 505 513 9 o.channel, BmsNoteType.mine d0⟩ := by
          simp [processObject, h2]
        rw [hp] at h
        have he := Option.some.inj h
        subst he
        have hb : laneIn 469 477 505 513 9 o.channel < 18 :=
          laneIn_lt _ _ _ _ _ _ _ (by norm_num) (by norm_num) (by norm_num)
        have hb70 : laneIn 469 477 505 513 9 o.channel < 70 := by omega
        exact ⟨hb70, fun d _ => hb⟩

theorem claim_C9_witness :
    ∃ note, processObject (genObjs [⟨505, 0, 7⟩]) none ⟨505, 0, 7⟩ = some note ∧
      note.lane < 70 ∧ ∀ d, note.noteType = BmsNoteType.mine d → note.lane < 18 := by
  have hp : processObject (genObjs [⟨505, 0, 7⟩]) none ⟨505, 0, 7⟩ =
      some ⟨0, 9, BmsNoteType.mine 3⟩ := by
    norm_num [genObjs, processObject, noteTypeOf, laneIn, inAnyRange, RANGES,
      List.mergeSort]
  exact ⟨_, hp, claim_C9_lane_bounds _ none _ _ hp⟩

end Bms
